import Mathlib

/-!
Verification of the markdown formatting core of `writ.py`.

Documents are embedded as `List Char`, offsets as `Nat` on input (the claims
restrict inputs to non-negative offsets) and `Int` on output (Python returns
plain ints, and some operations do return negative offsets).  Python's
`str.split('\n')` is `splitOn '\n'`, `'\n'.join` is `joinLines`, and
`re.finditer` of an escaped literal pattern is the left-to-right
non-overlapping scanner `scan` (given fuel to make it structurally
recursive; the fuel is the text length, an upper bound on scan steps).
The whitespace class of `str.lstrip` and the regex `\s` is modelled by
the ASCII whitespace characters.
-/

namespace Writ

/-- ASCII whitespace, modelling Python's `\s` / `str.lstrip()` classes. -/
def pyWS (c : Char) : Bool :=
  c = ' ' || c = '\t' || c = '\n' || c = '\r' || c = Char.ofNat 11 || c = Char.ofNat 12

/-- `startsWith p s` is Python's `s.startswith(p)` on character lists. -/
def startsWith : List Char → List Char → Bool
  | [], _ => true
  | _ :: _, [] => false
  | a :: as, b :: bs => a = b && startsWith as bs

/-- Python's `text.split(sep)` for a one-character separator:
always returns at least one (possibly empty) piece. -/
def splitOn (sep : Char) : List Char → List (List Char)
  | [] => [[]]
  | c :: rest =>
    let r := splitOn sep rest
    if c = sep then [] :: r else (c :: r.headI) :: r.tail

/-- Python's `'\n'.join(lines)`. -/
def joinLines : List (List Char) → List Char
  | [] => []
  | [l] => l
  | l :: ls => l ++ '\n' :: joinLines ls

/-- The line-walking loop shared by `Format.heading` and `Format.listItem`:
`target_line` starts at 0 and `current_pos` at the given accumulator; the
loop breaks at the first line whose cumulative end reaches `pos`, else it
falls through with `target_line` still 0 and `current_pos` fully
accumulated.  Returns `(target_line, current_pos)`. -/
def locateLine : List (List Char) → Nat → Nat → Nat → Nat × Nat
  | [], _, _, cur => (0, cur)
  | l :: ls, pos, i, cur =>
    if pos ≤ cur + l.length then (i, cur) else locateLine ls pos (i + 1) (cur + l.length + 1)

/-- Sum of `len(line) + 1` over the first `t` lines: the character offset of
the start of line `t`. -/
def preLen : List (List Char) → Nat → Nat
  | _, 0 => 0
  | [], _ + 1 => 0
  | l :: ls, t + 1 => l.length + 1 + preLen ls t

/-- One step of `re.finditer` for a non-empty literal pattern `w`: scan left
to right, on a match record it and jump past it, else advance one character.
`fuel` bounds the number of steps (the scan consumes at least one character
per step). -/
def scanAux (w : List Char) : Nat → List Char → Nat → List (Nat × Nat)
  | 0, _, _ => []
  | _ + 1, [], _ => []
  | fuel + 1, c :: rest, i =>
    if w ≠ [] ∧ startsWith w (c :: rest) = true then
      (i, i + w.length) :: scanAux w fuel (List.drop w.length (c :: rest)) (i + w.length)
    else
      scanAux w fuel rest (i + 1)

/-- `re.finditer(re.escape(w), s)` as a list of `(start, end)` spans,
numbered from `i`. -/
def scan (w s : List Char) (i : Nat) : List (Nat × Nat) := scanAux w s.length s i

/-- The pairing loop of `Format._wrap`: pair occurrences 0-1, 2-3, ... and
return the first pair whose closed gap contains `spos`. -/
def findPair : List (Nat × Nat) → Nat → Option ((Nat × Nat) × (Nat × Nat))
  | m1 :: m2 :: rest, spos =>
    if m1.2 ≤ spos ∧ spos ≤ m2.1 then some (m1, m2) else findPair rest spos
  | _, _ => none

/-- `text[max(0, pos-20) : min(len(text), pos+20)]`, the bounded search
window of `Format._wrap` (natural subtraction clamps at 0). -/
def window (text : List Char) (pos : Nat) : List Char :=
  (text.take (min text.length (pos + 20))).drop (pos - 20)

/-- `Format._wrap(text, pos, wrapper)`: here `pos - 20` is the window's
`left` bound (`max(0, pos - 20)`) and `pos - (pos - 20)` is `search_pos =
pos - left`. -/
def wrap (text : List Char) (pos : Nat) (w : List Char) : List Char × Int :=
  match findPair (scan w (window text pos) 0) (pos - (pos - 20)) with
  | some (m1, m2) =>
    -- actual_start = left + m1.start, actual_end = left + m2.end,
    -- content = text[actual_start + wlen : actual_end - wlen],
    -- result = (text[:actual_start] + content + text[actual_end:],
    --           actual_start + len(content))
    (text.take ((pos - 20) + m1.1)
        ++ (text.take (((pos - 20) + m2.2) - w.length)).drop ((pos - 20) + m1.1 + w.length)
        ++ text.drop ((pos - 20) + m2.2),
      (((pos - 20) + m1.1 +
          ((text.take (((pos - 20) + m2.2) - w.length)).drop
            ((pos - 20) + m1.1 + w.length)).length : Nat) : Int))
  | none =>
    (text.take pos ++ w ++ w ++ text.drop pos, ((pos + w.length : Nat) : Int))

/-- The `"**"` delimiter of `Format.bold`. -/
def boldDelim : List Char := ['*', '*']

/-- The `"*"` delimiter of `Format.italic`. -/
def italicDelim : List Char := ['*']

/-- The `` "`" `` delimiter of `Format.inlineCode`. -/
def codeDelim : List Char := ['`']

/-- `Format.bold`. -/
def bold (text : List Char) (pos : Nat) : List Char × Int := wrap text pos boldDelim

/-- `Format.italic`. -/
def italic (text : List Char) (pos : Nat) : List Char × Int := wrap text pos italicDelim

/-- `Format.inlineCode`. -/
def inlineCode (text : List Char) (pos : Nat) : List Char × Int := wrap text pos codeDelim

/-- End position of the match of `re.match(r'^(#{1,6})\s*', line)`, or 0 when
there is no match (the line does not start with `#`): at most six leading
`#` characters plus the whitespace that follows them. -/
def hMatchEnd (l : List Char) : Nat :=
  let h := min (l.takeWhile (fun c => c = '#')).length 6
  if h = 0 then 0 else h + ((l.drop h).takeWhile pyWS).length

/-- The rewritten heading line: `'#' * level + ' ' + line[match_end:]`
(when there is no heading match the whole line is kept, `match_end = 0`). -/
def headingLine (level : Int) (l : List Char) : List Char :=
  List.replicate level.toNat '#' ++ ' ' :: l.drop (hMatchEnd l)

/-- `Format.heading(text, pos, level)`. -/
def heading (text : List Char) (pos : Nat) (level : Int) : List Char × Int :=
  if 1 ≤ level ∧ level ≤ 6 then
    let lines := splitOn '\n' text
    let tc := locateLine lines pos 0 0
    let line := lines.getD tc.1 []
    let newLine := headingLine level line
    (joinLines (lines.set tc.1 newLine),
      (tc.2 : Int) +
        min ((pos : Int) - tc.2 + ((newLine.length : Int) - (line.length : Int)))
          (newLine.length : Int))
  else
    (text, (pos : Int))

/-- `Format.link(text, pos)`: insert the placeholder `[text](url)`. -/
def link (text : List Char) (pos : Nat) : List Char × Int :=
  (text.take pos ++ ("[text](url)").toList ++ text.drop pos, (pos : Int) + 1)

/-- `Format.codeBlock(text, pos)`.  The source also walks the lines to
compute a `line_start` value that is never used afterward; it is omitted. -/
def codeBlock (text : List Char) (pos : Nat) : List Char × Int :=
  if 0 < pos ∧ text.get? (pos - 1) ≠ some '\n' then
    (text.take pos ++ ("\n```\n\n```\n").toList ++ text.drop pos, (pos : Int) + 5)
  else
    (text.take pos ++ ("```\n\n```\n").toList ++ text.drop pos, (pos : Int) + 4)

/-- `Format.listItem(text, pos)`. -/
def listItem (text : List Char) (pos : Nat) : List Char × Int :=
  let lines := splitOn '\n' text
  let tc := locateLine lines pos 0 0
  let line := lines.getD tc.1 []
  let stripped := line.dropWhile pyWS
  let indent := line.take (line.length - stripped.length)
  if startsWith ['-', ' '] stripped = true then
    (joinLines (lines.set tc.1 (indent ++ stripped.drop 2)), (pos : Int) - 2)
  else
    (joinLines (lines.set tc.1 (indent ++ '-' :: ' ' :: stripped)), (pos : Int) + 2)

/-- `Writ._get_cursor_position`: row/column to flat offset.  The Python loop
`for i in range(row): if i < len(lines): ...` sums exactly the existing
lines among the first `row`, i.e. a fold over `lines.take row`. -/
def getCursorPos (text : List Char) (row col : Nat) : Nat :=
  let lines := splitOn '\n' text
  ((lines.take row).foldl (fun a l => a + l.length + 1) 0) +
    (if _ : row < lines.length then min col (lines.getD row []).length else 0)

/-- The walk of `Writ._set_cursor_position`; `all` is the full line list,
used by the fallback (`len(lines)-1, len(lines[-1])`) when the loop
completes without a match. -/
def setGo (all : List (List Char)) : List (List Char) → Nat → Nat → Nat → Nat × Nat
  | [], _, _, _ => (all.length - 1, (all.getLastD []).length)
  | l :: ls, pos, row, cur =>
    if pos ≤ cur + l.length then (row, pos - cur)
    else setGo all ls pos (row + 1) (cur + l.length + 1)

/-- `Writ._set_cursor_position`: flat offset to row/column. -/
def setCursorPos (text : List Char) (pos : Nat) : Nat × Nat :=
  let lines := splitOn '\n' text
  setGo lines lines pos 0 0

/-- Modelled on the words of the specification of `setHeading`: the length of
"a leading run of 1 to 6 `#` characters plus following whitespace", to be
compared with the regex embedding `hMatchEnd`. -/
def stripLen (l : List Char) : Nat :=
  match (l.takeWhile (fun c => c = '#')).length with
  | 0 => 0
  | n + 1 => min (n + 1) 6 + ((l.drop (min (n + 1) 6)).takeWhile pyWS).length

/-! ### Lemmas about `startsWith` -/

theorem startsWith_append_self (w x : List Char) : startsWith w (w ++ x) = true := by
  induction w with
  | nil => rfl
  | cons a as ih => simp [startsWith, ih]

theorem length_le_of_startsWith :
    ∀ {w s : List Char}, startsWith w s = true → w.length ≤ s.length := by
  intro w
  induction w with
  | nil => simp
  | cons a as ih =>
    intro s h
    cases s with
    | nil => simp [startsWith] at h
    | cons b bs =>
      simp only [startsWith, Bool.and_eq_true, decide_eq_true_eq] at h
      have := ih h.2
      simp only [List.length_cons]
      omega

theorem startsWith_of_startsWith_take :
    ∀ {w s : List Char} {n : Nat}, startsWith w (s.take n) = true → startsWith w s = true := by
  intro w
  induction w with
  | nil => intro s n _; rfl
  | cons a as ih =>
    intro s n h
    cases s with
    | nil => simp at h; simp [startsWith] at h
    | cons b bs =>
      cases n with
      | zero => simp [startsWith] at h
      | succ m =>
        simp only [List.take, startsWith, Bool.and_eq_true] at h ⊢
        exact ⟨h.1, ih h.2⟩

theorem startsWith_take_of_startsWith :
    ∀ {w s : List Char} {n : Nat}, startsWith w s = true → w.length ≤ n →
      startsWith w (s.take n) = true := by
  intro w
  induction w with
  | nil => intro s n _ _; rfl
  | cons a as ih =>
    intro s n h hn
    cases s with
    | nil => simp [startsWith] at h
    | cons b bs =>
      cases n with
      | zero => simp at hn
      | succ m =>
        simp only [List.take, startsWith, Bool.and_eq_true] at h ⊢
        exact ⟨h.1, ih h.2 (by simpa using hn)⟩

theorem startsWith_of_startsWith_append :
    ∀ {w x y : List Char}, startsWith w (x ++ y) = true → w.length ≤ x.length →
      startsWith w x = true := by
  intro w x y h hle
  have : (x ++ y).take x.length = x := List.take_left x y
  exact this ▸ startsWith_take_of_startsWith h hle

theorem startsWith_iff_take :
    ∀ {w s : List Char}, startsWith w s = true ↔ s.take w.length = w := by
  intro w
  induction w with
  | nil => intro s; simp [startsWith]
  | cons a as ih =>
    intro s
    cases s with
    | nil => simp [startsWith]
    | cons b bs =>
      simp only [startsWith, Bool.and_eq_true, decide_eq_true_eq, List.length_cons,
        List.take, List.cons.injEq]
      constructor
      · rintro ⟨rfl, h⟩; exact ⟨rfl, ih.mp h⟩
      · rintro ⟨rfl, h⟩; exact ⟨rfl, ih.mpr h⟩

/-! ### Lemmas about `splitOn` and `joinLines` -/

theorem splitOn_ne_nil (sep : Char) (l : List Char) : splitOn sep l ≠ [] := by
  cases l with
  | nil => simp [splitOn]
  | cons c rest =>
    simp only [splitOn]
    split <;> simp

theorem joinLines_cons (l : List Char) (ls : List (List Char)) (h : ls ≠ []) :
    joinLines (l :: ls) = l ++ '\n' :: joinLines ls := by
  cases ls with
  | nil => exact absurd rfl h
  | cons x xs => rfl

theorem join_splitOn (text : List Char) : joinLines (splitOn '\n' text) = text := by
  induction text with
  | nil => rfl
  | cons c rest ih =>
    by_cases hc : c = '\n'
    · subst hc
      have hs : splitOn '\n' ('\n' :: rest) = [] :: splitOn '\n' rest := by
        simp [splitOn]
      rw [hs, joinLines_cons _ _ (splitOn_ne_nil _ _), ih]
      rfl
    · simp only [splitOn, if_neg hc]
      cases hrr : splitOn '\n' rest with
      | nil => exact absurd hrr (splitOn_ne_nil _ _)
      | cons hd tl =>
        cases tl with
        | nil =>
          have hhd : hd = rest := by simpa [hrr, joinLines] using ih
          simp [joinLines, hhd]
        | cons x xs =>
          have ihx : hd ++ '\n' :: joinLines (x :: xs) = rest := by
            rw [hrr, joinLines_cons _ _ (by simp)] at ih
            exact ih
          simp only [List.headI, List.tail_cons]
          rw [joinLines_cons _ _ (by simp), List.cons_append, ihx]

theorem no_nl_of_mem_splitOn (text : List Char) :
    ∀ l ∈ splitOn '\n' text, '\n' ∉ l := by
  induction text with
  | nil => intro l hl; simp [splitOn] at hl; simp [hl]
  | cons c rest ih =>
    intro l hl
    by_cases hc : c = '\n'
    · subst hc
      have hs : splitOn '\n' ('\n' :: rest) = [] :: splitOn '\n' rest := by
        simp [splitOn]
      rw [hs] at hl
      rcases List.mem_cons.mp hl with h1 | h1
      · simp [h1]
      · exact ih l h1
    · simp only [splitOn, if_neg hc] at hl
      cases hrr : splitOn '\n' rest with
      | nil => exact absurd hrr (splitOn_ne_nil _ _)
      | cons hd tl =>
        rw [hrr] at hl
        simp only [List.headI, List.tail_cons, List.mem_cons] at hl
        rcases hl with rfl | hl
        · intro hmem
          rcases List.mem_cons.mp hmem with h | h
          · exact hc h.symm
          · exact ih hd (by simp [hrr]) h
        · exact ih l (by simp [hrr, hl])

theorem splitOn_of_no_nl {l : List Char} (h : '\n' ∉ l) : splitOn '\n' l = [l] := by
  induction l with
  | nil => rfl
  | cons c rest ih =>
    have hc : ¬ c = '\n' := fun hh => h (by simp [hh])
    have hr : splitOn '\n' rest = [rest] := ih (fun hm => h (by simp [hm]))
    simp [splitOn, hc, hr]

theorem splitOn_append_nl {l rest : List Char} (h : '\n' ∉ l) :
    splitOn '\n' (l ++ '\n' :: rest) = l :: splitOn '\n' rest := by
  induction l with
  | nil => simp [splitOn]
  | cons c l2 ih =>
    have hc : ¬ c = '\n' := fun hh => h (by simp [hh])
    have hr := ih (fun hm => h (by simp [hm]))
    simp [splitOn, hc, hr]

theorem splitOn_joinLines :
    ∀ {ls : List (List Char)}, ls ≠ [] → (∀ l ∈ ls, '\n' ∉ l) →
      splitOn '\n' (joinLines ls) = ls := by
  intro ls
  induction ls with
  | nil => intro h; exact absurd rfl h
  | cons l t ih =>
    intro _ hno
    cases t with
    | nil => exact splitOn_of_no_nl (hno l (by simp))
    | cons x xs =>
      rw [joinLines_cons _ _ (by simp), splitOn_append_nl (hno l (by simp))]
      rw [ih (by simp) (fun y hy => hno y (by simp [hy]))]

/-! ### Lemmas about `locateLine` and `preLen` -/

theorem locateLine_cons (l : List Char) (ls : List (List Char)) (pos i cur : Nat) :
    locateLine (l :: ls) pos i cur =
      if pos ≤ cur + l.length then (i, cur)
      else locateLine ls pos (i + 1) (cur + l.length + 1) := rfl

theorem joinLines_cons_length (l : List Char) (ls : List (List Char)) (h : ls ≠ []) :
    (joinLines (l :: ls)).length = l.length + 1 + (joinLines ls).length := by
  rw [joinLines_cons _ _ h]
  simp only [List.length_append, List.length_cons]
  omega

theorem locateLine_found :
    ∀ (ls : List (List Char)), ls ≠ [] → ∀ (pos i cur : Nat),
      pos ≤ cur + (joinLines ls).length →
      ∃ t, t < ls.length ∧ locateLine ls pos i cur = (i + t, cur + preLen ls t) ∧
        pos ≤ cur + preLen ls t + (ls.getD t []).length := by
  intro ls
  induction ls with
  | nil => intro h; exact absurd rfl h
  | cons l t ih =>
    intro _ pos i cur hpos
    by_cases hb : pos ≤ cur + l.length
    · refine ⟨0, by simp, ?_, ?_⟩
      · simp [locateLine_cons, hb, preLen]
      · simpa [preLen] using hb
    · push_neg at hb
      cases t with
      | nil =>
        exfalso
        simp only [joinLines] at hpos
        omega
      | cons x xs =>
        have hlen := joinLines_cons_length l (x :: xs) (by simp)
        obtain ⟨t2, ht1, ht2, ht3⟩ :=
          ih (by simp) pos (i + 1) (cur + l.length + 1) (by omega)
        refine ⟨t2 + 1, by simpa using Nat.succ_lt_succ ht1, ?_, ?_⟩
        · rw [locateLine_cons, if_neg (by omega), ht2]
          simp only [Prod.mk.injEq, preLen]
          omega
        · simp only [preLen, List.getD_cons_succ]
          omega

theorem locateLine_beyond :
    ∀ (ls : List (List Char)) (pos i cur : Nat),
      cur + (joinLines ls).length < pos →
      ∃ c, locateLine ls pos i cur = (0, c) := by
  intro ls
  induction ls with
  | nil => intro pos i cur _; exact ⟨cur, rfl⟩
  | cons l t ih =>
    intro pos i cur hpos
    have hll : l.length ≤ (joinLines (l :: t)).length := by
      cases t with
      | nil => simp [joinLines]
      | cons x xs => rw [joinLines_cons_length _ _ (by simp)]; omega
    have hb : ¬ pos ≤ cur + l.length := by omega
    cases t with
    | nil => exact ⟨cur + l.length + 1, by rw [locateLine_cons, if_neg hb]; rfl⟩
    | cons x xs =>
      have hlen := joinLines_cons_length l (x :: xs) (by simp)
      obtain ⟨c, hc⟩ := ih pos (i + 1) (cur + l.length + 1) (by omega)
      exact ⟨c, by rw [locateLine_cons, if_neg hb, hc]⟩

theorem preLen_set_add_le :
    ∀ (ls : List (List Char)) (t : Nat) (x : List Char), t < ls.length →
      preLen ls t + x.length ≤ (joinLines (ls.set t x)).length := by
  intro ls
  induction ls with
  | nil => intro t x h; simp at h
  | cons l rest ih =>
    intro t x ht
    cases t with
    | zero =>
      simp only [preLen, List.set]
      cases rest with
      | nil => simp [joinLines]
      | cons y ys => rw [joinLines_cons_length _ _ (by simp)]; omega
    | succ t2 =>
      have ht2 : t2 < rest.length := by simpa using ht
      have hrest : rest.set t2 x ≠ [] := by
        cases rest
        · simp at ht2
        · cases t2 <;> simp [List.set]
      simp only [preLen, List.set]
      rw [joinLines_cons_length _ _ hrest]
      have := ih t2 x ht2
      omega

theorem joinLines_set_length :
    ∀ (ls : List (List Char)) (t : Nat) (x : List Char), t < ls.length →
      (joinLines (ls.set t x)).length + (ls.getD t []).length =
        (joinLines ls).length + x.length := by
  intro ls
  induction ls with
  | nil => intro t x h; simp at h
  | cons l rest ih =>
    intro t x ht
    cases t with
    | zero =>
      simp only [List.set, List.getD_cons_zero]
      cases rest with
      | nil => simp [joinLines]; omega
      | cons y ys =>
        have e1 := joinLines_cons_length x (y :: ys) (by simp)
        have e2 := joinLines_cons_length l (y :: ys) (by simp)
        omega
    | succ t2 =>
      have ht2 : t2 < rest.length := by simpa using ht
      have hrest : rest.set t2 x ≠ [] := by
        cases rest
        · simp at ht2
        · cases t2 <;> simp [List.set]
      have hrest2 : rest ≠ [] := by
        cases rest
        · simp at ht2
        · simp
      simp only [List.set, List.getD_cons_succ]
      rw [joinLines_cons_length _ _ hrest, joinLines_cons_length _ _ hrest2]
      have := ih t2 x ht2
      omega

/-! ### Lemmas about `scan` and `findPair` -/

theorem scanAux_nil (w : List Char) (fuel i : Nat) : scanAux w fuel [] i = [] := by
  cases fuel <;> rfl

theorem scanAux_fuel (w : List Char) :
    ∀ (f1 f2 : Nat) (s : List Char) (i : Nat), s.length ≤ f1 → s.length ≤ f2 →
      scanAux w f1 s i = scanAux w f2 s i := by
  intro f1
  induction f1 with
  | zero =>
    intro f2 s i h1 _
    have hs : s = [] := List.eq_nil_of_length_eq_zero (by omega)
    subst hs
    rw [scanAux_nil, scanAux_nil]
  | succ g1 ih =>
    intro f2 s i h1 h2
    cases s with
    | nil => rw [scanAux_nil, scanAux_nil]
    | cons c rest =>
      cases f2 with
      | zero => simp at h2
      | succ g2 =>
        simp only [scanAux]
        split
        · rename_i hcond
          have hw : 1 ≤ w.length := List.length_pos.mpr hcond.1
          have hd : (List.drop w.length (c :: rest)).length ≤ rest.length := by
            simp only [List.length_drop, List.length_cons]
            omega
          rw [ih g2 (List.drop w.length (c :: rest)) (i + w.length)
            (by simp only [List.length_cons] at h1; omega)
            (by simp only [List.length_cons] at h2; omega)]
        · exact ih g2 rest (i + 1)
            (by simp only [List.length_cons] at h1; omega)
            (by simp only [List.length_cons] at h2; omega)

theorem scan_cons (w : List Char) (c : Char) (rest : List Char) (i : Nat) :
    scan w (c :: rest) i =
      if w ≠ [] ∧ startsWith w (c :: rest) = true then
        (i, i + w.length) :: scan w (List.drop w.length (c :: rest)) (i + w.length)
      else scan w rest (i + 1) := by
  show scanAux w (rest.length + 1) (c :: rest) i = _
  simp only [scanAux]
  split
  · rename_i hcond
    have hw : 1 ≤ w.length := List.length_pos.mpr hcond.1
    congr 1
    apply scanAux_fuel
    · simp only [List.length_drop, List.length_cons]; omega
    · exact le_rfl
  · rfl

theorem scan_append_skip (w : List Char) :
    ∀ (A B : List Char) (i : Nat),
      (∀ k, k < A.length → startsWith w ((A ++ B).drop k) = false) →
      scan w (A ++ B) i = scan w B (i + A.length) := by
  intro A
  induction A with
  | nil => intro B i _; simp
  | cons c A2 ih =>
    intro B i h
    have h0 : startsWith w (c :: (A2 ++ B)) = false := by
      simpa using h 0 (by simp)
    rw [List.cons_append, scan_cons, if_neg (by
      rintro ⟨-, hsw⟩
      rw [h0] at hsw
      exact Bool.noConfusion hsw)]
    rw [ih B (i + 1) (fun k hk => by simpa using h (k + 1) (by simpa using Nat.succ_lt_succ hk))]
    congr 1
    simp only [List.length_cons]
    omega

theorem scan_match_head (w : List Char) (hw : w ≠ []) (X : List Char) (i : Nat) :
    scan w (w ++ X) i = (i, i + w.length) :: scan w X (i + w.length) := by
  cases w with
  | nil => exact absurd rfl hw
  | cons c w2 =>
    rw [List.cons_append, scan_cons, if_pos ⟨by simp, by
      rw [← List.cons_append]
      exact startsWith_append_self (c :: w2) X⟩]
    congr 1
    rw [← List.cons_append, List.drop_left]

theorem scan_of_no_match (w : List Char) (B : List Char) (i : Nat)
    (h : ∀ k, k < B.length → startsWith w (B.drop k) = false) : scan w B i = [] := by
  have := scan_append_skip w B [] i (by simpa using h)
  rw [List.append_nil] at this
  rw [this]
  rfl

theorem startsWith_false_of_scan_nil (w : List Char) (hw : w ≠ []) :
    ∀ (s : List Char) (i : Nat), scan w s i = [] → ∀ k, startsWith w (s.drop k) = false := by
  intro s
  induction s with
  | nil =>
    intro i _ k
    rw [List.drop_nil]
    cases w with
    | nil => exact absurd rfl hw
    | cons c w2 => rfl
  | cons c rest ih =>
    intro i h k
    rw [scan_cons] at h
    split at h
    · exact absurd h (by simp)
    · rename_i hcond
      cases k with
      | zero =>
        rw [List.drop_zero]
        cases hsw : startsWith w (c :: rest) with
        | false => rfl
        | true => exact absurd ⟨hw, hsw⟩ hcond
      | succ k2 => exact ih (i + 1) h k2

theorem scanAux_mem (w : List Char) :
    ∀ (fuel : Nat) (s : List Char) (i a b : Nat), (a, b) ∈ scanAux w fuel s i →
      i ≤ a ∧ b = a + w.length ∧ w ≠ [] := by
  intro fuel
  induction fuel with
  | zero => intro s i a b h; simp [scanAux] at h
  | succ g ih =>
    intro s i a b h
    cases s with
    | nil => simp [scanAux] at h
    | cons c rest =>
      simp only [scanAux] at h
      split at h
      · rename_i hcond
        rcases List.mem_cons.mp h with heq | hmem
        · obtain ⟨h1, h2⟩ := Prod.mk.injEq .. ▸ heq
          exact ⟨by omega, by omega, hcond.1⟩
        · obtain ⟨h1, h2, h3⟩ := ih _ _ _ _ hmem
          exact ⟨by omega, h2, h3⟩
      · obtain ⟨h1, h2, h3⟩ := ih _ _ _ _ h
        exact ⟨by omega, h2, h3⟩

theorem scan_mem (w s : List Char) (i a b : Nat) (h : (a, b) ∈ scan w s i) :
    i ≤ a ∧ b = a + w.length ∧ w ≠ [] :=
  scanAux_mem w s.length s i a b h

theorem findPair_sound_aux :
    ∀ (n : Nat) (l : List (Nat × Nat)), l.length ≤ n → ∀ (spos : Nat) (m1 m2 : Nat × Nat),
      findPair l spos = some (m1, m2) →
      m1 ∈ l ∧ m2 ∈ l ∧ m1.2 ≤ spos ∧ spos ≤ m2.1 := by
  intro n
  induction n with
  | zero =>
    intro l hl spos m1 m2 h
    have : l = [] := List.eq_nil_of_length_eq_zero (by omega)
    subst this
    simp [findPair] at h
  | succ g ih =>
    intro l hl spos m1 m2 h
    match l with
    | [] => simp [findPair] at h
    | [x] => simp [findPair] at h
    | x :: y :: rest =>
      rw [findPair] at h
      split at h
      · rename_i hcond
        obtain ⟨h1, h2⟩ := Prod.mk.injEq .. ▸ (Option.some.injEq .. ▸ h)
        subst h1; subst h2
        exact ⟨by simp, by simp, hcond.1, hcond.2⟩
      · have hlen : rest.length ≤ g := by
          simp only [List.length_cons] at hl
          omega
        obtain ⟨hm1, hm2, hc1, hc2⟩ := ih rest hlen spos m1 m2 h
        exact ⟨by simp [hm1], by simp [hm2], hc1, hc2⟩

theorem findPair_sound {l : List (Nat × Nat)} {spos : Nat} {m1 m2 : Nat × Nat}
    (h : findPair l spos = some (m1, m2)) :
    m1 ∈ l ∧ m2 ∈ l ∧ m1.2 ≤ spos ∧ spos ≤ m2.1 :=
  findPair_sound_aux l.length l le_rfl spos m1 m2 h

/-! ### Further list utilities -/

theorem take_sub_dropWhile (p : Char → Bool) (l : List Char) :
    l.take (l.length - (l.dropWhile p).length) = l.takeWhile p := by
  have hsplit : l.takeWhile p ++ l.dropWhile p = l := List.takeWhile_append_dropWhile p l
  have hlen : (l.takeWhile p).length + (l.dropWhile p).length = l.length := by
    rw [← List.length_append, hsplit]
  have h2 : l.length - (l.dropWhile p).length = (l.takeWhile p).length := by omega
  rw [h2]
  nth_rewrite 2 [← hsplit]
  exact List.take_left _ _

theorem hMatchEnd_eq_stripLen (l : List Char) : hMatchEnd l = stripLen l := by
  unfold hMatchEnd stripLen
  cases hn : (l.takeWhile (fun c => c = '#')).length with
  | zero => simp
  | succ n =>
    have hmin : ¬ min (n + 1) 6 = 0 := by omega
    simp [hmin]

/-! ### C9: invalid heading level is a no-op -/

/-- C9: for every document and offset, `heading` with a level outside `[1, 6]`
returns the input text and offset unchanged. -/
theorem heading_invalid_level_noop (text : List Char) (pos : Nat) (level : Int)
    (h : level < 1 ∨ 6 < level) : heading text pos level = (text, (pos : Int)) := by
  rw [heading, if_neg (by omega)]

/-- Witness for C9 at level 7 on the document `"a"`. -/
theorem heading_invalid_level_noop_witness :
    ((7 : Int) < 1 ∨ (6 : Int) < 7) ∧ heading ("a").toList 1 7 = (("a").toList, (1 : Int)) :=
  ⟨Or.inr (by norm_num), heading_invalid_level_noop ("a").toList 1 7 (Or.inr (by norm_num))⟩

/-! ### C6: code block insertion distinguishes line starts -/

/-- C6: `codeBlock` inserts the bare fence block and shifts the offset by 4
when the offset is 0 or follows a newline, otherwise it prepends a newline
and shifts the offset by 5; at offset 0 of the empty text the result is the
fence block with offset 4. -/
theorem codeBlock_spec :
    (∀ (text : List Char) (pos : Nat),
      codeBlock text pos =
        if pos = 0 ∨ text.get? (pos - 1) = some '\n' then
          (text.take pos ++ ("```\n\n```\n").toList ++ text.drop pos, (pos : Int) + 4)
        else
          (text.take pos ++ ("\n```\n\n```\n").toList ++ text.drop pos, (pos : Int) + 5))
    ∧ codeBlock [] 0 = (("```\n\n```\n").toList, 4) := by
  constructor
  · intro text pos
    rw [codeBlock]
    by_cases h1 : pos = 0
    · rw [if_neg (fun hc => absurd hc.1 (by omega)), if_pos (Or.inl h1)]
    · by_cases h2 : text.get? (pos - 1) = some '\n'
      · rw [if_neg (fun hc => hc.2 h2), if_pos (Or.inr h2)]
      · rw [if_pos ⟨Nat.pos_of_ne_zero h1, h2⟩, if_neg (by tauto)]
  · rfl

theorem wrap_eq_insert (text : List Char) (pos : Nat) (w : List Char)
    (h : findPair (scan w (window text pos) 0) (pos - (pos - 20)) = none) :
    wrap text pos w =
      (text.take pos ++ w ++ w ++ text.drop pos, ((pos + w.length : Nat) : Int)) := by
  unfold wrap
  rw [h]

theorem wrap_eq_remove (text : List Char) (pos : Nat) (w : List Char) (s1 e1 s2 e2 : Nat)
    (h : findPair (scan w (window text pos) 0) (pos - (pos - 20)) = some ((s1, e1), (s2, e2))) :
    wrap text pos w =
      (text.take ((pos - 20) + s1)
          ++ (text.take (((pos - 20) + e2) - w.length)).drop ((pos - 20) + s1 + w.length)
          ++ text.drop ((pos - 20) + e2),
        (((pos - 20) + s1 +
            ((text.take (((pos - 20) + e2) - w.length)).drop
              ((pos - 20) + s1 + w.length)).length : Nat) : Int)) := by
  unfold wrap
  rw [h]

/-! ### C5: wrap inserts an empty span when no enclosing pair is found -/

/-- C5: when the pairing loop finds no enclosing delimiter pair in the
20-character window, `wrap` inserts two consecutive copies of the delimiter
at the offset and moves the offset past the first copy. -/
theorem wrap_insert_spec (text : List Char) (pos : Nat) (w : List Char)
    (h : findPair (scan w (window text pos) 0) (pos - (pos - 20)) = none) :
    wrap text pos w =
      (text.take pos ++ w ++ w ++ text.drop pos, ((pos + w.length : Nat) : Int)) :=
  wrap_eq_insert text pos w h

/-- Witness for C5: `wrapToggle("the quick brown fox", 9, Bold)` yields
`"the quick**** brown fox"` with new offset 11. -/
theorem wrap_insert_spec_witness :
    findPair (scan boldDelim (window ("the quick brown fox").toList 9) 0) (9 - (9 - 20)) = none
    ∧ wrap ("the quick brown fox").toList 9 boldDelim =
        (("the quick**** brown fox").toList, (11 : Int)) := by
  refine ⟨by decide, ?_⟩
  rw [wrap_insert_spec ("the quick brown fox").toList 9 boldDelim (by decide)]
  decide

/-! ### C8: list item toggle -/

/-- C8: `listItem` removes a leading `"- "` marker (after the indentation,
which is kept) and shifts the offset by −2, otherwise inserts `"- "` after
the indentation and shifts the offset by +2; on the line `"  hello"` it
produces `"  - hello"` and applying it again restores `"  hello"`. -/
theorem listItem_toggle_spec :
    (∀ (text : List Char) (pos : Nat),
      listItem text pos =
        (let lines := splitOn '\n' text
         let t := (locateLine lines pos 0 0).1
         let line := lines.getD t []
         let stripped := line.dropWhile pyWS
         let indent := line.takeWhile pyWS
         if stripped.take 2 = ['-', ' '] then
           (joinLines (lines.set t (indent ++ stripped.drop 2)), (pos : Int) - 2)
         else
           (joinLines (lines.set t (indent ++ '-' :: ' ' :: stripped)), (pos : Int) + 2)))
    ∧ listItem ("  hello").toList 7 = (("  - hello").toList, 9)
    ∧ listItem ("  - hello").toList 9 = (("  hello").toList, 7) := by
  refine ⟨?_, by decide, by decide⟩
  intro text pos
  simp only [listItem, take_sub_dropWhile]
  by_cases hb : startsWith ['-', ' ']
      (((splitOn '\n' text).getD (locateLine (splitOn '\n' text) pos 0 0).1 []).dropWhile pyWS)
      = true
  · rw [if_pos hb, if_pos (by simpa using startsWith_iff_take.mp hb)]
  · rw [if_neg hb, if_neg (fun hc => hb (startsWith_iff_take.mpr (by simpa using hc)))]

/-! ### C7: heading rewrites the target line's marker -/

/-- C7: for a valid level and in-range offset, `heading` rewrites the target
line to exactly `level` `#` characters, a space, and the line with its
leading run of 1–6 `#` characters plus following whitespace removed. -/
theorem heading_rewrite_spec (text : List Char) (pos : Nat) (level : Int)
    (h1 : 1 ≤ level) (h2 : level ≤ 6) (hpos : pos ≤ text.length) :
    (heading text pos level).1 =
      joinLines ((splitOn '\n' text).set (locateLine (splitOn '\n' text) pos 0 0).1
        (List.replicate level.toNat '#' ++ ' ' ::
          ((splitOn '\n' text).getD (locateLine (splitOn '\n' text) pos 0 0).1 []).drop
            (stripLen ((splitOn '\n' text).getD
              (locateLine (splitOn '\n' text) pos 0 0).1 [])))) := by
  rw [heading, if_pos ⟨h1, h2⟩]
  simp only [headingLine, hMatchEnd_eq_stripLen]

/-- Witness for C7 on an H5 line: `setHeading("##### title", 2, 3)` yields a
line starting with exactly `"### "` and no residual `#` from the old
marker. -/
theorem heading_rewrite_spec_witness :
    ((1 : Int) ≤ 3 ∧ (3 : Int) ≤ 6 ∧ 2 ≤ ("##### title").toList.length) ∧
    (heading ("##### title").toList 2 3).1 =
      joinLines ((splitOn '\n' ("##### title").toList).set
        (locateLine (splitOn '\n' ("##### title").toList) 2 0 0).1
        (List.replicate (3 : Int).toNat '#' ++ ' ' ::
          ((splitOn '\n' ("##### title").toList).getD
            (locateLine (splitOn '\n' ("##### title").toList) 2 0 0).1 []).drop
            (stripLen ((splitOn '\n' ("##### title").toList).getD
              (locateLine (splitOn '\n' ("##### title").toList) 2 0 0).1 [])))) ∧
    (heading ("##### title").toList 2 3).1 = ("### title").toList :=
  ⟨⟨by norm_num, by norm_num, by decide⟩,
    heading_rewrite_spec ("##### title").toList 2 3 (by norm_num) (by norm_num) (by decide),
    by decide⟩

/-! ### C2: offset/position round trip -/

theorem foldl_take_preLen :
    ∀ (ls : List (List Char)) (row a : Nat),
      (ls.take row).foldl (fun acc l => acc + l.length + 1) a = a + preLen ls row := by
  intro ls
  induction ls with
  | nil => intro row a; cases row <;> simp [preLen]
  | cons l t ih =>
    intro row a
    cases row with
    | zero => simp [preLen]
    | succ r2 =>
      simp only [List.take, List.foldl]
      rw [ih]
      simp only [preLen]
      omega

theorem setGo_cons (all : List (List Char)) (l : List Char) (ls : List (List Char))
    (pos row cur : Nat) :
    setGo all (l :: ls) pos row cur =
      if pos ≤ cur + l.length then (row, pos - cur)
      else setGo all ls pos (row + 1) (cur + l.length + 1) := rfl

theorem setGo_spec (all : List (List Char)) :
    ∀ (ls : List (List Char)) (row col r0 cur : Nat), row < ls.length →
      setGo all ls (cur + preLen ls row + min col (ls.getD row []).length) r0 cur =
        (r0 + row, min col (ls.getD row []).length) := by
  intro ls
  induction ls with
  | nil => intro row col r0 cur h; simp at h
  | cons l t ih =>
    intro row col r0 cur h
    cases row with
    | zero =>
      have hm : min col l.length ≤ l.length := Nat.min_le_right _ _
      simp only [preLen, List.getD_cons_zero]
      rw [setGo_cons, if_pos (by omega)]
      simp only [Prod.mk.injEq]
      omega
    | succ r2 =>
      have h2 : r2 < t.length := by simpa using h
      simp only [preLen, List.getD_cons_succ]
      have hcond : ¬ (cur + (l.length + 1 + preLen t r2) + min col (t.getD r2 []).length
          ≤ cur + l.length) := by omega
      rw [setGo_cons, if_neg hcond]
      have heq : cur + (l.length + 1 + preLen t r2) + min col (t.getD r2 []).length
          = cur + l.length + 1 + preLen t r2 + min col (t.getD r2 []).length := by omega
      rw [heq, ih r2 col (r0 + 1) (cur + l.length + 1) h2]
      simp only [Prod.mk.injEq]
      exact ⟨by omega, trivial⟩

/-- C2: for every document, line index `row` and column, converting the
position to a flat offset and back yields `(row, min col lineLength)`. -/
theorem position_offset_roundtrip (text : List Char) (row col : Nat)
    (h : row < (splitOn '\n' text).length) :
    setCursorPos text (getCursorPos text row col) =
      (row, min col ((splitOn '\n' text).getD row []).length) := by
  rw [getCursorPos, setCursorPos]
  simp only [dif_pos h]
  rw [foldl_take_preLen]
  have := setGo_spec (splitOn '\n' text) (splitOn '\n' text) row col 0 0 h
  simpa using this

/-- Witness for C2 on `"ab\ncd"`, row 1, column 99 (clamped to 2). -/
theorem position_offset_roundtrip_witness :
    1 < (splitOn '\n' ("ab\ncd").toList).length ∧
    setCursorPos ("ab\ncd").toList (getCursorPos ("ab\ncd").toList 1 99) =
      (1, min 99 ((splitOn '\n' ("ab\ncd").toList).getD 1 []).length) :=
  ⟨by decide, position_offset_roundtrip ("ab\ncd").toList 1 99 (by decide)⟩

/-! ### Counterexamples -/

/-- Counterexample to C1 as stated: `toggleListItem("- a", 0)` has an
in-range offset (0 ≤ 0 ≤ 3) but returns the pair `("a", -2)`, whose new
offset is negative. -/
theorem listItem_negative_offset :
    (0 : Nat) ≤ ("- a").toList.length ∧
    listItem ("- a").toList 0 = (("a").toList, (-2 : Int)) ∧
    ¬ (0 ≤ (-2 : Int)) := by decide

/-- Counterexample to C3 as stated: for `T = "*a"`, `P = 1` and the Bold
delimiter there is no occurrence of `"**"` in the search window, yet
applying `wrap` twice yields `("*********a", 5)`, not the original
`("*a", 1)`: the lone `'*'` left of the offset merges with the inserted
delimiters and misaligns the pair matching of the second call. -/
theorem wrap_twice_not_identity :
    scan boldDelim (window ("*a").toList 1) 0 = [] ∧
    wrap ("*a").toList 1 boldDelim = (("*****a").toList, (3 : Int)) ∧
    wrap ("*****a").toList 3 boldDelim = (("*********a").toList, (5 : Int)) ∧
    (("*********a").toList, (5 : Int)) ≠ (("*a").toList, (1 : Int)) := by decide

/-- Counterexample to C4 as stated: on `"a\nb"` with offset 4 (beyond the
total length 3) `heading` rewrites the FIRST line, not the last: the result
is `"# a\nb"`, not `"a\n# b"`. -/
theorem heading_beyond_end_first_line :
    ("a\nb").toList.length < 4 ∧
    (heading ("a\nb").toList 4 1).1 = ("# a\nb").toList ∧
    (heading ("a\nb").toList 4 1).1 ≠ ("a\n# b").toList := by decide

/-! ### Frame machinery: a set line round-trips through join/split -/

theorem splitOn_joinLines_set (text : List Char) (t : Nat) (nl : List Char)
    (hnl : '\n' ∉ nl) :
    splitOn '\n' (joinLines ((splitOn '\n' text).set t nl)) = (splitOn '\n' text).set t nl := by
  apply splitOn_joinLines
  · cases hsp : splitOn '\n' text with
    | nil => exact absurd hsp (splitOn_ne_nil _ _)
    | cons a b => cases t <;> simp [List.set]
  · intro l hl
    rcases List.mem_or_eq_of_mem_set hl with h | h
    · exact no_nl_of_mem_splitOn text l h
    · exact h ▸ hnl

theorem frame_of_set (text : List Char) (t : Nat) (nl : List Char) (hnl : '\n' ∉ nl) :
    (splitOn '\n' (joinLines ((splitOn '\n' text).set t nl))).length =
      (splitOn '\n' text).length
    ∧ ∀ j, j ≠ t →
        (splitOn '\n' (joinLines ((splitOn '\n' text).set t nl))).get? j =
          (splitOn '\n' text).get? j := by
  rw [splitOn_joinLines_set text t nl hnl]
  exact ⟨List.length_set _ _ _, fun j hj => List.get?_set_ne _ _ (fun h => hj h.symm)⟩

theorem mem_of_mem_takeWhile {p : Char → Bool} {a : Char} {l : List Char}
    (h : a ∈ l.takeWhile p) : a ∈ l :=
  (List.takeWhile_append_dropWhile p l) ▸ List.mem_append_left _ h

theorem mem_of_mem_dropWhile {p : Char → Bool} {a : Char} {l : List Char}
    (h : a ∈ l.dropWhile p) : a ∈ l :=
  (List.takeWhile_append_dropWhile p l) ▸ List.mem_append_right _ h

theorem no_nl_headingLine (level : Int) (l : List Char) (h : '\n' ∉ l) :
    '\n' ∉ headingLine level l := by
  intro hm
  simp only [headingLine, List.mem_append, List.mem_cons] at hm
  rcases hm with hm | hm | hm
  · exact absurd (List.eq_of_mem_replicate hm) (by decide)
  · exact absurd hm (by decide)
  · exact h (List.mem_of_mem_drop hm)

theorem no_nl_listRemove (l : List Char) (h : '\n' ∉ l) :
    '\n' ∉ l.takeWhile pyWS ++ (l.dropWhile pyWS).drop 2 := by
  intro hm
  rcases List.mem_append.mp hm with hm | hm
  · exact h (mem_of_mem_takeWhile hm)
  · exact h (mem_of_mem_dropWhile (List.mem_of_mem_drop hm))

theorem no_nl_listInsert (l : List Char) (h : '\n' ∉ l) :
    '\n' ∉ l.takeWhile pyWS ++ '-' :: ' ' :: l.dropWhile pyWS := by
  intro hm
  rcases List.mem_append.mp hm with hm | hm
  · exact h (mem_of_mem_takeWhile hm)
  · rcases List.mem_cons.mp hm with hm | hm
    · exact absurd hm (by decide)
    · rcases List.mem_cons.mp hm with hm | hm
      · exact absurd hm (by decide)
      · exact h (mem_of_mem_dropWhile hm)

theorem getD_no_nl (text : List Char) (t : Nat) :
    '\n' ∉ (splitOn '\n' text).getD t [] := by
  by_cases ht : t < (splitOn '\n' text).length
  · have : (splitOn '\n' text).getD t [] ∈ splitOn '\n' text := by
      rw [List.getD_eq_getElem _ _ ht]
      exact List.getElem_mem _
    exact no_nl_of_mem_splitOn text _ this
  · rw [List.getD_eq_default _ _ (by omega)]
    simp

/-! ### C10: heading and listItem modify at most the target line -/

/-- C10: for an in-range offset and valid level, `heading` and `listItem`
leave the number of lines unchanged and leave every non-target line
character-for-character unchanged. -/
theorem single_line_frame (text : List Char) (pos : Nat) (level : Int)
    (hpos : pos ≤ text.length) (h1 : 1 ≤ level) (h2 : level ≤ 6) :
    ((splitOn '\n' (heading text pos level).1).length = (splitOn '\n' text).length
      ∧ ∀ j, j ≠ (locateLine (splitOn '\n' text) pos 0 0).1 →
          (splitOn '\n' (heading text pos level).1).get? j = (splitOn '\n' text).get? j)
    ∧ ((splitOn '\n' (listItem text pos).1).length = (splitOn '\n' text).length
      ∧ ∀ j, j ≠ (locateLine (splitOn '\n' text) pos 0 0).1 →
          (splitOn '\n' (listItem text pos).1).get? j = (splitOn '\n' text).get? j) := by
  constructor
  · have hfst : (heading text pos level).1 =
        joinLines ((splitOn '\n' text).set (locateLine (splitOn '\n' text) pos 0 0).1
          (headingLine level
            ((splitOn '\n' text).getD (locateLine (splitOn '\n' text) pos 0 0).1 []))) := by
      rw [heading, if_pos ⟨h1, h2⟩]
    rw [hfst]
    exact frame_of_set text _ _ (no_nl_headingLine level _ (getD_no_nl text _))
  · by_cases hb : startsWith ['-', ' ']
        (((splitOn '\n' text).getD (locateLine (splitOn '\n' text) pos 0 0).1 []).dropWhile pyWS)
        = true
    · have hfst : (listItem text pos).1 =
          joinLines ((splitOn '\n' text).set (locateLine (splitOn '\n' text) pos 0 0).1
            (((splitOn '\n' text).getD (locateLine (splitOn '\n' text) pos 0 0).1 []).takeWhile
                pyWS ++
              (((splitOn '\n' text).getD (locateLine (splitOn '\n' text) pos 0 0).1
                []).dropWhile pyWS).drop 2)) := by
        simp only [listItem, take_sub_dropWhile, if_pos hb]
      rw [hfst]
      exact frame_of_set text _ _ (no_nl_listRemove _ (getD_no_nl text _))
    · have hfst : (listItem text pos).1 =
          joinLines ((splitOn '\n' text).set (locateLine (splitOn '\n' text) pos 0 0).1
            (((splitOn '\n' text).getD (locateLine (splitOn '\n' text) pos 0 0).1 []).takeWhile
                pyWS ++
              '-' :: ' ' ::
                ((splitOn '\n' text).getD (locateLine (splitOn '\n' text) pos 0 0).1
                  []).dropWhile pyWS)) := by
        simp only [listItem, take_sub_dropWhile, if_neg hb]
      rw [hfst]
      exact frame_of_set text _ _ (no_nl_listInsert _ (getD_no_nl text _))

/-- Witness for C10 on `"ab\ncd"` at offset 4 (inside line 1), level 2. -/
theorem single_line_frame_witness :
    (4 ≤ ("ab\ncd").toList.length ∧ (1 : Int) ≤ 2 ∧ (2 : Int) ≤ 6) ∧
    (((splitOn '\n' (heading ("ab\ncd").toList 4 2).1).length =
        (splitOn '\n' ("ab\ncd").toList).length
      ∧ ∀ j, j ≠ (locateLine (splitOn '\n' ("ab\ncd").toList) 4 0 0).1 →
          (splitOn '\n' (heading ("ab\ncd").toList 4 2).1).get? j =
            (splitOn '\n' ("ab\ncd").toList).get? j)
    ∧ ((splitOn '\n' (listItem ("ab\ncd").toList 4).1).length =
        (splitOn '\n' ("ab\ncd").toList).length
      ∧ ∀ j, j ≠ (locateLine (splitOn '\n' ("ab\ncd").toList) 4 0 0).1 →
          (splitOn '\n' (listItem ("ab\ncd").toList 4).1).get? j =
            (splitOn '\n' ("ab\ncd").toList).get? j)) :=
  ⟨⟨by decide, by norm_num, by norm_num⟩,
    single_line_frame ("ab\ncd").toList 4 2 (by decide) (by norm_num) (by norm_num)⟩

/-! ### Offset bounds of the individual operations (for C1) -/

theorem wrap_bounds (text : List Char) (pos : Nat) (w : List Char) (hpos : pos ≤ text.length) :
    0 ≤ (wrap text pos w).2 ∧ (wrap text pos w).2 ≤ ((wrap text pos w).1.length : Int) := by
  cases hfp : findPair (scan w (window text pos) 0) (pos - (pos - 20)) with
  | none =>
    rw [wrap_eq_insert text pos w hfp]
    refine ⟨Int.natCast_nonneg _, ?_⟩
    simp only [List.length_append, List.length_take, List.length_drop]
    push_cast
    omega
  | some m =>
    obtain ⟨⟨s1, e1⟩, s2, e2⟩ := m
    rw [wrap_eq_remove text pos w s1 e1 s2 e2 hfp]
    obtain ⟨hm1, _, hc1, _⟩ := findPair_sound hfp
    obtain ⟨_, hb1, _⟩ := scan_mem _ _ _ _ _ hm1
    have hkey : (pos - 20) + s1 + w.length ≤ pos := by
      simp only at hb1 hc1
      omega
    refine ⟨Int.natCast_nonneg _, ?_⟩
    simp only [List.length_append, List.length_take, List.length_drop]
    push_cast
    omega

theorem link_bounds (text : List Char) (pos : Nat) (hpos : pos ≤ text.length) :
    0 ≤ (link text pos).2 ∧ (link text pos).2 ≤ ((link text pos).1.length : Int) := by
  rw [link]
  refine ⟨by positivity, ?_⟩
  simp only [List.length_append, List.length_take, List.length_drop]
  push_cast
  have : ("[text](url)").toList.length = 11 := by decide
  omega

theorem codeBlock_bounds (text : List Char) (pos : Nat) (hpos : pos ≤ text.length) :
    0 ≤ (codeBlock text pos).2 ∧ (codeBlock text pos).2 ≤ ((codeBlock text pos).1.length : Int) := by
  rw [codeBlock]
  have h9 : ("```\n\n```\n").toList.length = 9 := by decide
  have h10 : ("\n```\n\n```\n").toList.length = 10 := by decide
  split
  · refine ⟨by positivity, ?_⟩
    simp only [List.length_append, List.length_take, List.length_drop]
    push_cast
    omega
  · refine ⟨by positivity, ?_⟩
    simp only [List.length_append, List.length_take, List.length_drop]
    push_cast
    omega

theorem heading_upper (text : List Char) (pos : Nat) (level : Int) (hpos : pos ≤ text.length) :
    (heading text pos level).2 ≤ ((heading text pos level).1.length : Int) := by
  by_cases hv : 1 ≤ level ∧ level ≤ 6
  · obtain ⟨t2, ht, hloc, _⟩ :=
      locateLine_found (splitOn '\n' text) (splitOn_ne_nil '\n' text) pos 0 0
        (by rw [join_splitOn]; omega)
    simp only [heading, if_pos hv, hloc, Nat.zero_add]
    have hle := preLen_set_add_le (splitOn '\n' text) t2
      (headingLine level ((splitOn '\n' text).getD t2 [])) ht
    omega
  · rw [heading, if_neg hv]
    show (pos : Int) ≤ (text.length : Int)
    omega

theorem listItem_upper (text : List Char) (pos : Nat) (hpos : pos ≤ text.length) :
    (listItem text pos).2 ≤ ((listItem text pos).1.length : Int) := by
  obtain ⟨t2, ht, hloc, _⟩ :=
    locateLine_found (splitOn '\n' text) (splitOn_ne_nil '\n' text) pos 0 0
      (by rw [join_splitOn]; omega)
  have hjoin : (joinLines (splitOn '\n' text)).length = text.length := by rw [join_splitOn]
  simp only [listItem, take_sub_dropWhile, hloc, Nat.zero_add]
  have hlenline : (((splitOn '\n' text).getD t2 []).takeWhile pyWS).length +
      (((splitOn '\n' text).getD t2 []).dropWhile pyWS).length =
      ((splitOn '\n' text).getD t2 []).length := by
    rw [← List.length_append, List.takeWhile_append_dropWhile]
  by_cases hb : startsWith ['-', ' '] (((splitOn '\n' text).getD t2 []).dropWhile pyWS) = true
  · rw [if_pos hb]
    have hst : 2 ≤ (((splitOn '\n' text).getD t2 []).dropWhile pyWS).length := by
      simpa using length_le_of_startsWith hb
    have hset := joinLines_set_length (splitOn '\n' text) t2
      ((((splitOn '\n' text).getD t2 []).takeWhile pyWS) ++
        ((((splitOn '\n' text).getD t2 []).dropWhile pyWS).drop 2)) ht
    simp only [List.length_append, List.length_drop] at hset ⊢
    omega
  · rw [if_neg hb]
    have hset := joinLines_set_length (splitOn '\n' text) t2
      ((((splitOn '\n' text).getD t2 []).takeWhile pyWS) ++
        '-' :: ' ' :: (((splitOn '\n' text).getD t2 []).dropWhile pyWS)) ht
    simp only [List.length_append, List.length_cons] at hset ⊢
    omega

/-! ### C1 amended: bounds on the returned offset -/

/-- C1 amended: for every in-range offset, every operation returns a new
offset bounded above by the length of the new document, and the wrap
operations (bold, italic, inline code), `link` and `codeBlock` also return a
non-negative offset; `heading` and `listItem` can return a negative offset
(see `listItem_negative_offset`), so only the upper bound holds for them. -/
theorem newOffset_bounds (text : List Char) (pos : Nat) (hpos : pos ≤ text.length) :
    (0 ≤ (bold text pos).2 ∧ (bold text pos).2 ≤ ((bold text pos).1.length : Int))
    ∧ (0 ≤ (italic text pos).2 ∧ (italic text pos).2 ≤ ((italic text pos).1.length : Int))
    ∧ (0 ≤ (inlineCode text pos).2 ∧
        (inlineCode text pos).2 ≤ ((inlineCode text pos).1.length : Int))
    ∧ (0 ≤ (link text pos).2 ∧ (link text pos).2 ≤ ((link text pos).1.length : Int))
    ∧ (0 ≤ (codeBlock text pos).2 ∧
        (codeBlock text pos).2 ≤ ((codeBlock text pos).1.length : Int))
    ∧ (∀ level : Int, (heading text pos level).2 ≤ ((heading text pos level).1.length : Int))
    ∧ (listItem text pos).2 ≤ ((listItem text pos).1.length : Int) :=
  ⟨wrap_bounds text pos boldDelim hpos, wrap_bounds text pos italicDelim hpos,
    wrap_bounds text pos codeDelim hpos, link_bounds text pos hpos,
    codeBlock_bounds text pos hpos, fun level => heading_upper text pos level hpos,
    listItem_upper text pos hpos⟩

/-- Witness for the amended C1 on `"* x\n- y"` at offset 5. -/
theorem newOffset_bounds_witness :
    5 ≤ ("* x\n- y").toList.length ∧
    ((0 ≤ (bold ("* x\n- y").toList 5).2 ∧
        (bold ("* x\n- y").toList 5).2 ≤ (((bold ("* x\n- y").toList 5).1.length : Int)))
    ∧ (0 ≤ (italic ("* x\n- y").toList 5).2 ∧
        (italic ("* x\n- y").toList 5).2 ≤ (((italic ("* x\n- y").toList 5).1.length : Int)))
    ∧ (0 ≤ (inlineCode ("* x\n- y").toList 5).2 ∧
        (inlineCode ("* x\n- y").toList 5).2 ≤
          (((inlineCode ("* x\n- y").toList 5).1.length : Int)))
    ∧ (0 ≤ (link ("* x\n- y").toList 5).2 ∧
        (link ("* x\n- y").toList 5).2 ≤ (((link ("* x\n- y").toList 5).1.length : Int)))
    ∧ (0 ≤ (codeBlock ("* x\n- y").toList 5).2 ∧
        (codeBlock ("* x\n- y").toList 5).2 ≤
          (((codeBlock ("* x\n- y").toList 5).1.length : Int)))
    ∧ (∀ level : Int, (heading ("* x\n- y").toList 5 level).2 ≤
        (((heading ("* x\n- y").toList 5 level).1.length : Int)))
    ∧ (listItem ("* x\n- y").toList 5).2 ≤
        (((listItem ("* x\n- y").toList 5).1.length : Int))) :=
  ⟨by decide, newOffset_bounds ("* x\n- y").toList 5 (by decide)⟩

/-! ### C4 amended: an offset beyond the end targets the first line -/

/-- C4 amended: when the offset is strictly beyond the total document length
the line-walking loop of `heading` and `listItem` completes without a match
and `target_line` keeps its initial value 0, so the FIRST line (not the
last) is the target; the operation still completes without failing, and
every line other than line 0 is unchanged. -/
theorem target_line_beyond_end_is_first (text : List Char) (pos : Nat) (level : Int)
    (hpos : text.length < pos) (h1 : 1 ≤ level) (h2 : level ≤ 6) :
    (locateLine (splitOn '\n' text) pos 0 0).1 = 0
    ∧ (heading text pos level).1 =
        joinLines ((splitOn '\n' text).set 0 (headingLine level ((splitOn '\n' text).getD 0 [])))
    ∧ (splitOn '\n' (listItem text pos).1).length = (splitOn '\n' text).length
    ∧ ∀ j, j ≠ 0 →
        (splitOn '\n' (listItem text pos).1).get? j = (splitOn '\n' text).get? j := by
  obtain ⟨c, hloc⟩ := locateLine_beyond (splitOn '\n' text) pos 0 0
    (by rw [join_splitOn]; omega)
  have h0 : (locateLine (splitOn '\n' text) pos 0 0).1 = 0 := by rw [hloc]
  refine ⟨h0, ?_, ?_, ?_⟩
  · have hfst : (heading text pos level).1 =
        joinLines ((splitOn '\n' text).set (locateLine (splitOn '\n' text) pos 0 0).1
          (headingLine level
            ((splitOn '\n' text).getD (locateLine (splitOn '\n' text) pos 0 0).1 []))) := by
      rw [heading, if_pos ⟨h1, h2⟩]
    rw [hfst, h0]
  all_goals {
    by_cases hb : startsWith ['-', ' ']
        (((splitOn '\n' text).getD (locateLine (splitOn '\n' text) pos 0 0).1 []).dropWhile pyWS)
        = true
    · have hfst : (listItem text pos).1 =
          joinLines ((splitOn '\n' text).set (locateLine (splitOn '\n' text) pos 0 0).1
            (((splitOn '\n' text).getD (locateLine (splitOn '\n' text) pos 0 0).1 []).takeWhile
                pyWS ++
              (((splitOn '\n' text).getD (locateLine (splitOn '\n' text) pos 0 0).1
                []).dropWhile pyWS).drop 2)) := by
        simp only [listItem, take_sub_dropWhile, if_pos hb]
      rw [hfst, h0]
      first
      | exact (frame_of_set text 0 _ (no_nl_listRemove _ (getD_no_nl text _))).1
      | exact fun j hj => (frame_of_set text 0 _
          (no_nl_listRemove _ (getD_no_nl text _))).2 j hj
    · have hfst : (listItem text pos).1 =
          joinLines ((splitOn '\n' text).set (locateLine (splitOn '\n' text) pos 0 0).1
            (((splitOn '\n' text).getD (locateLine (splitOn '\n' text) pos 0 0).1 []).takeWhile
                pyWS ++
              '-' :: ' ' ::
                ((splitOn '\n' text).getD (locateLine (splitOn '\n' text) pos 0 0).1
                  []).dropWhile pyWS)) := by
        simp only [listItem, take_sub_dropWhile, if_neg hb]
      rw [hfst, h0]
      first
      | exact (frame_of_set text 0 _ (no_nl_listInsert _ (getD_no_nl text _))).1
      | exact fun j hj => (frame_of_set text 0 _
          (no_nl_listInsert _ (getD_no_nl text _))).2 j hj
  }

/-- Witness for the amended C4 on `"a\nb"` at offset 4 with level 1. -/
theorem target_line_beyond_end_is_first_witness :
    (("a\nb").toList.length < 4 ∧ (1 : Int) ≤ 1 ∧ (1 : Int) ≤ 6) ∧
    ((locateLine (splitOn '\n' ("a\nb").toList) 4 0 0).1 = 0
    ∧ (heading ("a\nb").toList 4 1).1 =
        joinLines ((splitOn '\n' ("a\nb").toList).set 0
          (headingLine 1 ((splitOn '\n' ("a\nb").toList).getD 0 [])))
    ∧ (splitOn '\n' (listItem ("a\nb").toList 4).1).length =
        (splitOn '\n' ("a\nb").toList).length
    ∧ ∀ j, j ≠ 0 →
        (splitOn '\n' (listItem ("a\nb").toList 4).1).get? j =
          (splitOn '\n' ("a\nb").toList).get? j) :=
  ⟨⟨by decide, by norm_num, by norm_num⟩,
    target_line_beyond_end_is_first ("a\nb").toList 4 1 (by decide) (by norm_num) (by norm_num)⟩

/-! ### C3 amended: double wrap is the identity on an unformatted region -/

/-- If the first call's window scan finds nothing, then the delimiter does
not occur starting at any text position whose whole match fits inside that
window. -/
theorem no_occur_in_text (w text : List Char) (pos p : Nat) (hwne : w ≠ [])
    (hno : scan w (window text pos) 0 = [])
    (hlow : pos - 20 ≤ p) (hhigh : p + w.length ≤ min text.length (pos + 20)) :
    startsWith w (text.drop p) = false := by
  cases hsw : startsWith w (text.drop p) with
  | false => rfl
  | true =>
    exfalso
    have hfalse := startsWith_false_of_scan_nil w hwne (window text pos) 0 hno (p - (pos - 20))
    rw [window, List.drop_drop,
      show (pos - 20) + (p - (pos - 20)) = p from by omega, List.drop_take] at hfalse
    have h2 := startsWith_take_of_startsWith hsw
      (show w.length ≤ min text.length (pos + 20) - p from by omega)
    rw [h2] at hfalse
    exact Bool.noConfusion hfalse

/-- C3 amended: for each of the three delimiters, if the delimiter does not
occur in the 20-character window around the offset (the first call's scan
finds no match) and — for the two-character Bold delimiter — the character
immediately before the offset is not `'*'`, then `wrap` inserts an empty
span and a second `wrap` at the returned offset removes exactly that span,
returning the original `(text, pos)`. -/
theorem wrap_twice_identity (text : List Char) (pos : Nat) (w : List Char)
    (hw : w = boldDelim ∨ w = italicDelim ∨ w = codeDelim)
    (hpos : pos ≤ text.length)
    (hno : scan w (window text pos) 0 = [])
    (hadj : w = boldDelim → pos = 0 ∨ text.getD (pos - 1) ' ' ≠ '*') :
    wrap text pos w =
      (text.take pos ++ w ++ w ++ text.drop pos, ((pos + w.length : Nat) : Int))
    ∧ wrap (text.take pos ++ w ++ w ++ text.drop pos) (pos + w.length) w =
        (text, (pos : Int)) := by
  have hwne : w ≠ [] := by
    rcases hw with rfl | rfl | rfl <;> simp [boldDelim, italicDelim, codeDelim]
  have hw1 : 1 ≤ w.length := List.length_pos.mpr hwne
  have hw2 : w.length ≤ 2 := by
    rcases hw with rfl | rfl | rfl <;> simp [boldDelim, italicDelim, codeDelim]
  refine ⟨wrap_eq_insert text pos w (by rw [hno]; rfl), ?_⟩
  set A := text.take pos with hAdef
  set B := text.drop pos with hBdef
  have hAlen : A.length = pos := by rw [hAdef, List.length_take]; omega
  have hBlen : B.length = text.length - pos := by rw [hBdef, List.length_drop]
  have hlen2 : (A ++ w ++ w ++ B).length = text.length + 2 * w.length := by
    simp only [List.length_append]
    omega
  set L2 := pos + w.length - 20 with hL2
  set R2 := min (A ++ w ++ w ++ B).length (pos + w.length + 20) with hR2
  set a := pos - L2 with ha
  set A2 := A.drop L2 with hA2
  set B2 := B.take (R2 - (pos + 2 * w.length)) with hB2
  have hL2pos : L2 ≤ pos := by omega
  have hA2len : A2.length = a := by rw [hA2, List.length_drop, hAlen, ha]
  have hRge : pos + 2 * w.length ≤ R2 := by
    rw [hR2]
    apply le_min <;> omega
  have hRle20 : R2 ≤ pos + w.length + 20 := by rw [hR2]; exact min_le_right _ _
  -- the second call's search window is the inserted span plus the clamped
  -- remains of the first call's window
  have hwin : window (A ++ w ++ w ++ B) (pos + w.length) = A2 ++ (w ++ (w ++ B2)) := by
    rw [window, ← hR2, ← hL2,
      show A ++ w ++ w ++ B = A ++ (w ++ (w ++ B)) from by simp [List.append_assoc],
      List.take_append_eq_append_take,
      List.take_of_length_le (show A.length ≤ R2 from by omega), hAlen,
      List.take_append_eq_append_take,
      List.take_of_length_le (show w.length ≤ R2 - pos from by omega),
      List.take_append_eq_append_take,
      List.take_of_length_le (show w.length ≤ R2 - pos - w.length from by omega),
      List.drop_append_eq_append_drop,
      show L2 - A.length = 0 from by rw [hAlen]; omega, List.drop_zero, ← hA2,
      show R2 - pos - w.length - w.length = R2 - (pos + 2 * w.length) from by omega, ← hB2]
  -- no delimiter occurrence starts inside the window part left of the span
  have hKA : ∀ k, k < A2.length → startsWith w ((A2 ++ (w ++ (w ++ B2))).drop k) = false := by
    intro k hk
    rw [hA2len] at hk
    cases hsw : startsWith w ((A2 ++ (w ++ (w ++ B2))).drop k) with
    | false => rfl
    | true =>
      exfalso
      rw [List.drop_append_eq_append_drop,
        show k - A2.length = 0 from by omega, List.drop_zero] at hsw
      by_cases hcase : k + w.length ≤ a
      · have h1 : startsWith w (A2.drop k) = true :=
          startsWith_of_startsWith_append hsw (by rw [List.length_drop, hA2len]; omega)
        rw [hA2, List.drop_drop, hAdef, List.drop_take] at h1
        have h2 := startsWith_of_startsWith_take h1
        have hwle := length_le_of_startsWith h2
        rw [List.length_drop] at hwle
        have hfalse := no_occur_in_text w text pos (L2 + k) hwne hno (by omega) (by omega)
        rw [h2] at hfalse
        exact Bool.noConfusion hfalse
      · have hwb : w = boldDelim := by
          rcases hw with h | h | h
          · exact h
          · exfalso
            apply hcase
            rw [h]
            simp only [italicDelim, List.length_cons, List.length_nil]
            omega
          · exfalso
            apply hcase
            rw [h]
            simp only [codeDelim, List.length_cons, List.length_nil]
            omega
        have hwl2 : w.length = 2 := by rw [hwb]; rfl
        have hk1 : k = a - 1 := by omega
        have ha1 : 1 ≤ a := by omega
        have hpos1 : 1 ≤ pos := by omega
        have hL2k : L2 + k = pos - 1 := by omega
        have hA2drop : A2.drop k = [text.getD (pos - 1) ' '] := by
          rw [hA2, List.drop_drop, hL2k, hAdef, List.drop_take,
            show pos - (pos - 1) = 1 from by omega,
            List.take_one_drop_eq_of_lt_length (show pos - 1 < text.length from by omega),
            List.getD_eq_get text ' ' (show pos - 1 < text.length from by omega)]
        rw [hA2drop, hwb] at hsw
        have hc : text.getD (pos - 1) ' ' = '*' := by
          simp only [boldDelim, List.singleton_append, List.cons_append, List.nil_append,
            startsWith, Bool.and_eq_true, decide_eq_true_eq] at hsw
          exact hsw.1.symm
        rcases hadj hwb with h0 | hstar
        · omega
        · exact hstar hc
  -- no delimiter occurrence starts inside the window part right of the span
  have hKB : ∀ k, k < B2.length → startsWith w (B2.drop k) = false := by
    intro k hk
    cases hsw : startsWith w (B2.drop k) with
    | false => rfl
    | true =>
      exfalso
      rw [hB2, List.drop_take] at hsw
      have h2 := startsWith_of_startsWith_take hsw
      rw [hBdef, List.drop_drop] at h2
      have hwle := length_le_of_startsWith h2
      rw [List.length_drop] at hwle
      have hkb : k < R2 - (pos + 2 * w.length) := by
        rw [hB2, List.length_take] at hk
        omega
      have hfalse := no_occur_in_text w text pos (pos + k) hwne hno (by omega) (by omega)
      rw [h2] at hfalse
      exact Bool.noConfusion hfalse
  -- hence the scan of the second window finds exactly the inserted span
  have hscan : scan w (window (A ++ w ++ w ++ B) (pos + w.length)) 0
      = [(a, a + w.length), (a + w.length, a + 2 * w.length)] := by
    rw [hwin, scan_append_skip w A2 (w ++ (w ++ B2)) 0 hKA, hA2len, Nat.zero_add,
      scan_match_head w hwne, scan_match_head w hwne,
      scan_of_no_match w B2 (a + w.length + w.length) hKB,
      show a + w.length + w.length = a + 2 * w.length from by omega]
  have hsp2 : pos + w.length - (pos + w.length - 20) = a + w.length := by omega
  have hfp : findPair (scan w (window (A ++ w ++ w ++ B) (pos + w.length)) 0)
      (pos + w.length - (pos + w.length - 20))
      = some ((a, a + w.length), (a + w.length, a + 2 * w.length)) := by
    rw [hscan, hsp2, findPair, if_pos ⟨le_rfl, le_rfl⟩]
  rw [wrap_eq_remove (A ++ w ++ w ++ B) (pos + w.length) w a (a + w.length)
    (a + w.length) (a + 2 * w.length) hfp, ← hL2]
  have e1 : L2 + a = pos := by omega
  have e2 : L2 + (a + 2 * w.length) - w.length = pos + w.length := by omega
  have e4 : L2 + (a + 2 * w.length) = pos + 2 * w.length := by omega
  rw [e1, e2, e4]
  have hc1 : ((A ++ w ++ w ++ B).take (pos + w.length)).drop (pos + w.length) = [] :=
    List.drop_eq_nil_of_le (by rw [List.length_take]; omega)
  have hc2 : (A ++ w ++ w ++ B).take pos = A := by
    rw [show A ++ w ++ w ++ B = A ++ (w ++ (w ++ B)) from by simp [List.append_assoc],
      List.take_append_eq_append_take,
      show pos - A.length = 0 from by omega, List.take_zero, List.append_nil]
    exact List.take_of_length_le (by omega)
  have hc3 : (A ++ w ++ w ++ B).drop (pos + 2 * w.length) = B := by
    rw [show A ++ w ++ w ++ B = A ++ (w ++ (w ++ B)) from by simp [List.append_assoc],
      List.drop_append_eq_append_drop,
      List.drop_eq_nil_of_le (show A.length ≤ pos + 2 * w.length from by omega),
      List.nil_append,
      show pos + 2 * w.length - A.length = 2 * w.length from by omega,
      List.drop_append_eq_append_drop,
      List.drop_eq_nil_of_le (show w.length ≤ 2 * w.length from by omega),
      List.nil_append,
      show 2 * w.length - w.length = w.length from by omega,
      List.drop_append_eq_append_drop,
      List.drop_eq_nil_of_le (le_refl w.length),
      List.nil_append,
      show w.length - w.length = 0 from by omega, List.drop_zero]
  rw [hc1, hc2, hc3]
  simp only [List.append_nil, List.length_nil, Nat.add_zero, Prod.mk.injEq]
  exact ⟨by rw [hAdef, hBdef, List.take_append_drop], trivial⟩

/-- Witness for the amended C3: double Bold wrap at `("hi", 1)` round-trips. -/
theorem wrap_twice_identity_witness :
    (boldDelim = boldDelim ∨ boldDelim = italicDelim ∨ boldDelim = codeDelim) ∧
    1 ≤ ("hi").toList.length ∧
    scan boldDelim (window ("hi").toList 1) 0 = [] ∧
    (boldDelim = boldDelim → 1 = 0 ∨ ("hi").toList.getD (1 - 1) ' ' ≠ '*') ∧
    (wrap ("hi").toList 1 boldDelim =
        (("hi").toList.take 1 ++ boldDelim ++ boldDelim ++ ("hi").toList.drop 1,
          ((1 + boldDelim.length : Nat) : Int))
      ∧ wrap (("hi").toList.take 1 ++ boldDelim ++ boldDelim ++ ("hi").toList.drop 1)
          (1 + boldDelim.length) boldDelim = (("hi").toList, (1 : Int))) :=
  ⟨Or.inl rfl, by decide, by decide, fun _ => Or.inr (by decide),
    wrap_twice_identity ("hi").toList 1 boldDelim (Or.inl rfl) (by decide) (by decide)
      (fun _ => Or.inr (by decide))⟩

end Writ
